import Mathlib

/-!
Verification of `choreograph::Sequence` (src/choreograph/Sequence.hpp).

Times are C++ `float`s in the source; we model them as exact rationals (`ℚ`).
The value type `T` is a template parameter; we model it as a type parameter `α`.

The `Phrase`/`Source` collaborator (Phrase.hpp / Source.h) is not part of the
sources; per the spec (§6) a phrase is constructed from
(startTime, endTime, startValue, endValue, strategy args) and exposes those
bounds plus a value-at-time function. We model it accordingly.
-/

namespace Choreograph

/-- Modelled from the spec: a `Phrase` (external collaborator, Phrase.hpp is
absent from the sources) is a time-bounded unit of motion exposing its
start/end time, start/end value, and a value-at-time function (`getValue`,
defined on `[start, end)`). -/
structure Phrase (α : Type) where
  startTime : ℚ
  endTime : ℚ
  startValue : α
  endValue : α
  valueAt : ℚ → α

/-- Modelled from the spec: a phrase *strategy* (the `PhraseT` template argument
of `then`): given the constructor arguments start time, end time, start value
and end value, it yields the phrase's interpolation function. -/
def PhraseStrategy (α : Type) : Type := ℚ → ℚ → α → α → ℚ → α

/-- Modelled from the spec: `Hold` represents a constant value over a (possibly
zero) duration, transitioning to the target value. -/
def holdStrategy {α : Type} : PhraseStrategy α := fun _ _ _ endV _ => endV

/-- Model of the C++ class `Sequence<T>`: the cached `startTime`/`endTime` live
in the `Source<T>` base (Source.h, absent from the sources; per the spec they
are plain cached bounds), plus `_initial_value` and the `_phrases` vector. -/
structure Sequence (α : Type) where
  startTime : ℚ
  endTime : ℚ
  initial_value : α
  phrases : List (Phrase α)

/-- Model of the loop `while( iter < _phrases.end() )` in
`Sequence<T>::getValue`: the first phrase with `getEndTime() > atTime`, if
any (`none` exactly when the loop falls through to the final fallback). -/
def findDelegate {α : Type} (atTime : ℚ) : List (Phrase α) → Option (Phrase α)
  | [] => none
  | p :: rest => if atTime < p.endTime then some p else findDelegate atTime rest

namespace Sequence

variable {α : Type}

/-- Constructor `Sequence(const T &value)`: `Source<T>(0, 0)`,
`_initial_value(value)`. -/
def ofValue (value : α) : Sequence α :=
  { startTime := 0, endTime := 0, initial_value := value, phrases := [] }

/-- Constructor `Sequence(const std::vector<SourceRef<T>> &phrases)`: reads
`phrases.front()` and `phrases.back()` with no emptiness check. The two
unchecked element accesses are embedded as `head?`/`getLast?`: on the empty
vector the C++ reads out of bounds (undefined behavior, nothing reported), so
there the construction has no defined result (`none`); there is no error path
of the program here, only the absence of a defined value. -/
def ofPhrases (phrases : List (Phrase α)) : Option (Sequence α) :=
  match phrases.head?, phrases.getLast? with
  | some fst, some lst =>
    some { startTime := fst.startTime,
           endTime := lst.endTime,
           initial_value := fst.startValue,
           phrases := phrases }
  | _, _ => none

/-- Accessor `Source<T>::getStartTime`. -/
def getStartTime (s : Sequence α) : ℚ := s.startTime

/-- Accessor `Source<T>::getEndTime`. -/
def getEndTime (s : Sequence α) : ℚ := s.endTime

/-- Accessor `getStartValue(): return _initial_value`. -/
def getStartValue (s : Sequence α) : α := s.initial_value

/-- Accessor `getEndValue(): return _phrases.empty() ? _initial_value :
_phrases.back()->getEndValue()`. -/
def getEndValue (s : Sequence α) : α :=
  match s.phrases.getLast? with
  | none => s.initial_value
  | some p => p.endValue

/-- Accessor `getPhraseCount(): return _phrases.size()`. -/
def getPhraseCount (s : Sequence α) : Nat := s.phrases.length

/-- Model of `then<PhraseT>(value, duration, args...)`: constructs
`PhraseT(getEndTime(), getEndTime() + duration, getEndValue(), value, args...)`,
pushes it onto `_phrases`, and sets `endTime` to the phrase's end time.
(`then` is a Lean keyword, hence the name `thenPhrase`.) -/
def thenPhrase (s : Sequence α) (strat : PhraseStrategy α) (value : α)
    (duration : ℚ) : Sequence α :=
  let p : Phrase α :=
    { startTime := s.getEndTime,
      endTime := s.getEndTime + duration,
      startValue := s.getEndValue,
      endValue := value,
      valueAt := strat s.getEndTime (s.getEndTime + duration) s.getEndValue value }
  { s with phrases := s.phrases ++ [p], endTime := p.endTime }

/-- Model of `set(value)`: overwrite `_initial_value` when `_phrases.empty()`,
else `then<Hold>(value, 0.0f)`. -/
def set (s : Sequence α) (value : α) : Sequence α :=
  if s.phrases.isEmpty then { s with initial_value := value }
  else s.thenPhrase holdStrategy value 0

/-- Model of `copy(): return std::make_shared<SequenceT>(*this)` — a value
copy of the sequence (its own phrase-list storage, sharing the immutable
phrases). -/
def copy (s : Sequence α) : Sequence α := s

/-- Model of `Sequence<T>::getValue(atTime)`: clamp before the start to
`_initial_value`, clamp at/after the end to `getEndValue()`, otherwise scan for
the first phrase whose end time exceeds `atTime` and delegate to it; the
fall-through past the loop returns `getEndValue()`. -/
def getValue (s : Sequence α) (atTime : ℚ) : α :=
  if atTime < s.getStartTime then s.initial_value
  else if atTime ≥ s.getEndTime then s.getEndValue
  else
    match findDelegate atTime s.phrases with
    | some p => p.valueAt atTime
    | none => s.getEndValue

end Sequence

/-! ### Structural invariants -/

/-- Adjacent phrases meet in time: the left phrase ends where the right one
starts. -/
def PhraseLink {α : Type} (p q : Phrase α) : Prop := p.endTime = q.startTime

/-- Adjacent phrases meet in time *and* value (spec invariant I1 / P3). -/
def PhraseContinuous {α : Type} (p q : Phrase α) : Prop :=
  p.endTime = q.startTime ∧ p.endValue = q.startValue

/-- A phrase's interval is not reversed (non-negative duration). -/
def PhraseForward {α : Type} (p : Phrase α) : Prop := p.startTime ≤ p.endTime

/-- The cached `endTime` agrees with the last phrase's end time (when there is
one). -/
def Sequence.EndConsistent {α : Type} (s : Sequence α) : Prop :=
  ∀ p, s.phrases.getLast? = some p → s.endTime = p.endTime

/-! ### Basic unfolding lemmas -/

variable {α : Type}

theorem thenPhrase_phrases (s : Sequence α) (strat : PhraseStrategy α)
    (v : α) (d : ℚ) :
    (s.thenPhrase strat v d).phrases =
      s.phrases ++
        [{ startTime := s.getEndTime, endTime := s.getEndTime + d,
           startValue := s.getEndValue, endValue := v,
           valueAt := strat s.getEndTime (s.getEndTime + d) s.getEndValue v }] :=
  rfl

theorem thenPhrase_endTime (s : Sequence α) (strat : PhraseStrategy α)
    (v : α) (d : ℚ) :
    (s.thenPhrase strat v d).endTime = s.endTime + d := rfl

theorem thenPhrase_startTime (s : Sequence α) (strat : PhraseStrategy α)
    (v : α) (d : ℚ) :
    (s.thenPhrase strat v d).startTime = s.startTime := rfl

theorem thenPhrase_initial_value (s : Sequence α) (strat : PhraseStrategy α)
    (v : α) (d : ℚ) :
    (s.thenPhrase strat v d).initial_value = s.initial_value := rfl

theorem thenPhrase_getLast? (s : Sequence α) (strat : PhraseStrategy α)
    (v : α) (d : ℚ) :
    (s.thenPhrase strat v d).phrases.getLast? =
      some { startTime := s.getEndTime, endTime := s.getEndTime + d,
             startValue := s.getEndValue, endValue := v,
             valueAt := strat s.getEndTime (s.getEndTime + d) s.getEndValue v } := by
  rw [thenPhrase_phrases]
  exact List.getLast?_concat _

theorem thenPhrase_getEndValue (s : Sequence α) (strat : PhraseStrategy α)
    (v : α) (d : ℚ) :
    (s.thenPhrase strat v d).getEndValue = v := by
  unfold Sequence.getEndValue
  rw [thenPhrase_getLast?]

theorem getEndValue_of_getLast?_eq_some {s : Sequence α} {p : Phrase α}
    (h : s.phrases.getLast? = some p) : s.getEndValue = p.endValue := by
  unfold Sequence.getEndValue
  rw [h]

/-! ### Lemmas about the scan loop -/

theorem mem_of_findDelegate_eq_some {t : ℚ} :
    ∀ {l : List (Phrase α)} {p : Phrase α}, findDelegate t l = some p → p ∈ l
  | [], p, h => by simp [findDelegate] at h
  | a :: rest, p, h => by
    by_cases hta : t < a.endTime
    · simp [findDelegate, hta] at h
      exact h ▸ List.mem_cons_self a rest
    · simp [findDelegate, hta] at h
      exact List.mem_cons_of_mem a (mem_of_findDelegate_eq_some h)

theorem findDelegate_isSome_of_lt_getLast (t : ℚ) :
    ∀ (l : List (Phrase α)) (h : l ≠ []), t < (l.getLast h).endTime →
      ∃ p, findDelegate t l = some p := by
  intro l
  induction l with
  | nil => intro h; exact absurd rfl h
  | cons a rest ih =>
    intro h hlt
    by_cases hta : t < a.endTime
    · exact ⟨a, by simp [findDelegate, hta]⟩
    · cases rest with
      | nil => simp [List.getLast] at hlt; exact absurd hlt hta
      | cons b rest' =>
        have hne : (b :: rest') ≠ [] := by simp
        rw [List.getLast_cons hne] at hlt
        obtain ⟨p, hp⟩ := ih hne hlt
        refine ⟨p, ?_⟩
        show (if t < a.endTime then some a else findDelegate t (b :: rest')) =
          some p
        rw [if_neg hta]
        exact hp

/-- Every phrase after `a` in a chained, forward phrase list starts no earlier
than `a` ends. -/
theorem endTime_le_startTime_of_mem_tail {a : Phrase α} {l : List (Phrase α)}
    (hchain : List.Chain' PhraseLink (a :: l))
    (hdur : ∀ p ∈ l, PhraseForward p) :
    ∀ q ∈ l, a.endTime ≤ q.startTime := by
  induction l generalizing a with
  | nil => intro q hq; simp at hq
  | cons b l ih =>
    intro q hq
    have hab : PhraseLink a b := (List.chain'_cons.mp hchain).1
    rcases List.mem_cons.mp hq with rfl | hq'
    · exact le_of_eq hab
    · have hb : b.startTime ≤ b.endTime := hdur b (List.mem_cons_self b l)
      have htail := ih (List.chain'_cons.mp hchain).2
        (fun p hp => hdur p (List.mem_cons_of_mem _ hp)) q hq'
      calc a.endTime = b.startTime := hab
        _ ≤ b.endTime := hb
        _ ≤ q.startTime := htail

/-- The scan over a chained, forward phrase list that starts no later than `t`
and ends after `t` finds the unique phrase whose interval contains `t`. -/
theorem findDelegate_spec (t : ℚ) :
    ∀ (l : List (Phrase α)), List.Chain' PhraseLink l →
      (∀ p ∈ l, PhraseForward p) →
      ∀ (h : l ≠ []), (l.head h).startTime ≤ t → t < (l.getLast h).endTime →
      ∃ p, findDelegate t l = some p ∧ p ∈ l ∧ p.startTime ≤ t ∧ t < p.endTime ∧
        ∀ q ∈ l, q.startTime ≤ t → t < q.endTime → q = p := by
  intro l
  induction l with
  | nil => intro _ _ h; exact absurd rfl h
  | cons a rest ih =>
    intro hchain hdur h hhead hlast
    by_cases hta : t < a.endTime
    · refine ⟨a, by simp [findDelegate, hta], List.mem_cons_self a rest,
        hhead, hta, ?_⟩
      intro q hq hq1 _hq2
      rcases List.mem_cons.mp hq with rfl | hq'
      · rfl
      · have hle := endTime_le_startTime_of_mem_tail hchain
          (fun p hp => hdur p (List.mem_cons_of_mem _ hp)) q hq'
        exact absurd (lt_of_lt_of_le hta (le_trans hle hq1)) (lt_irrefl t)
    · push_neg at hta
      cases rest with
      | nil =>
        simp [List.getLast] at hlast
        exact absurd hlast (not_lt.mpr hta)
      | cons b rest' =>
        have hchain' := (List.chain'_cons.mp hchain).2
        have hab : a.endTime = b.startTime := (List.chain'_cons.mp hchain).1
        have hdur' : ∀ p ∈ b :: rest', PhraseForward p :=
          fun p hp => hdur p (List.mem_cons_of_mem _ hp)
        have hne : (b :: rest') ≠ [] := by simp
        have hhead' : ((b :: rest').head hne).startTime ≤ t := by
          simpa [List.head, ← hab] using hta
        have hlast' : t < ((b :: rest').getLast hne).endTime := by
          rw [List.getLast_cons hne] at hlast
          exact hlast
        obtain ⟨p, hfind, hmem, h1, h2, huniq⟩ :=
          ih hchain' hdur' hne hhead' hlast'
        have hstep : findDelegate t (a :: b :: rest') = some p := by
          show (if t < a.endTime then some a else findDelegate t (b :: rest')) =
            some p
          rw [if_neg (not_lt.mpr hta)]
          exact hfind
        refine ⟨p, hstep, List.mem_cons_of_mem _ hmem, h1, h2, ?_⟩
        intro q hq hq1 hq2
        rcases List.mem_cons.mp hq with rfl | hq'
        · exact absurd hq2 (not_lt.mpr hta)
        · exact huniq q hq' hq1 hq2

/-- Any phrase the scan selects from a chained list headed no later than `t`
contains `t` in its half-open domain. -/
theorem findDelegate_domain (t : ℚ) :
    ∀ (l : List (Phrase α)), List.Chain' PhraseLink l →
      ∀ (h : l ≠ []), (l.head h).startTime ≤ t →
      ∀ p, findDelegate t l = some p → p.startTime ≤ t ∧ t < p.endTime := by
  intro l
  induction l with
  | nil => intro _ h; exact absurd rfl h
  | cons a rest ih =>
    intro hchain h hhead p hp
    by_cases hta : t < a.endTime
    · simp [findDelegate, hta] at hp
      exact hp ▸ ⟨hhead, hta⟩
    · push_neg at hta
      simp [findDelegate, not_lt.mpr hta] at hp
      cases rest with
      | nil => simp [findDelegate] at hp
      | cons b rest' =>
        have hchain' := (List.chain'_cons.mp hchain).2
        have hab : a.endTime = b.startTime := (List.chain'_cons.mp hchain).1
        have hne : (b :: rest') ≠ [] := by simp
        have hhead' : ((b :: rest').head hne).startTime ≤ t := by
          simpa [List.head, ← hab] using hta
        exact ih hchain' hne hhead' p hp

/-- Unfolding of `getValue` when both guard clauses are passed. -/
theorem getValue_of_between {s : Sequence α} {t : ℚ}
    (h1 : s.startTime ≤ t) (h2 : t < s.endTime) :
    s.getValue t =
      match findDelegate t s.phrases with
      | some p => p.valueAt t
      | none => s.getEndValue := by
  unfold Sequence.getValue Sequence.getStartTime Sequence.getEndTime
  rw [if_neg (not_lt.mpr h1), if_neg (not_le.mpr h2)]

/-! ### Builder chains: sequences produced by `then` / `set` call chains -/

/-- One fluent builder call on a `Sequence`: either
`then<PhraseT>(value, duration)` or `set(value)`. -/
inductive BuildOp (α : Type) where
  | thenOp (strat : PhraseStrategy α) (value : α) (duration : ℚ)
  | setOp (value : α)

/-- Application of one builder call. -/
def applyOp (s : Sequence α) : BuildOp α → Sequence α
  | .thenOp strat v d => s.thenPhrase strat v d
  | .setOp v => s.set v

/-- The sequence obtained from `Sequence(v)` by a chain of `then`/`set`
calls. -/
def build (v : α) (ops : List (BuildOp α)) : Sequence α :=
  List.foldl applyOp (Sequence.ofValue v) ops

/-- One `then<PhraseT>(value, duration)` call (used for `then`-only chains). -/
structure ThenCall (α : Type) where
  strat : PhraseStrategy α
  value : α
  duration : ℚ

/-- Application of one `then` call. -/
def applyThen (s : Sequence α) (c : ThenCall α) : Sequence α :=
  s.thenPhrase c.strat c.value c.duration

/-- The sequence obtained from `Sequence(v)` by a chain of `then` calls. -/
def buildThens (v : α) (cs : List (ThenCall α)) : Sequence α :=
  List.foldl applyThen (Sequence.ofValue v) cs

/-- The two structural invariants preserved by the builder API: value/time
continuity of adjacent phrases, and agreement of the cached `endTime` with the
last phrase. -/
def GoodShape (s : Sequence α) : Prop :=
  List.Chain' PhraseContinuous s.phrases ∧ s.EndConsistent

theorem goodShape_ofValue (v : α) : GoodShape (Sequence.ofValue v) := by
  constructor
  · simp [Sequence.ofValue]
  · intro p hp
    simp [Sequence.ofValue] at hp

theorem endConsistent_thenPhrase (s : Sequence α) (strat : PhraseStrategy α)
    (v : α) (d : ℚ) : (s.thenPhrase strat v d).EndConsistent := by
  intro p hp
  rw [thenPhrase_getLast?] at hp
  cases hp
  rfl

theorem goodShape_thenPhrase {s : Sequence α} (h : GoodShape s)
    (strat : PhraseStrategy α) (v : α) (d : ℚ) :
    GoodShape (s.thenPhrase strat v d) := by
  refine ⟨?_, endConsistent_thenPhrase s strat v d⟩
  rw [thenPhrase_phrases, List.chain'_append]
  refine ⟨h.1, List.chain'_singleton _, ?_⟩
  intro x hx y hy
  rw [Option.mem_def] at hx
  simp at hy
  subst hy
  constructor
  · exact (h.2 x hx).symm
  · exact (getEndValue_of_getLast?_eq_some hx).symm

theorem goodShape_set {s : Sequence α} (h : GoodShape s) (v : α) :
    GoodShape (s.set v) := by
  unfold Sequence.set
  by_cases he : s.phrases.isEmpty
  · rw [if_pos he]
    refine ⟨h.1, ?_⟩
    intro p hp
    exact h.2 p hp
  · rw [if_neg he]
    exact goodShape_thenPhrase h holdStrategy v 0

theorem goodShape_applyOp {s : Sequence α} (h : GoodShape s) (op : BuildOp α) :
    GoodShape (applyOp s op) := by
  cases op with
  | thenOp strat v d => exact goodShape_thenPhrase h strat v d
  | setOp v => exact goodShape_set h v

theorem goodShape_foldl :
    ∀ (ops : List (BuildOp α)) (s : Sequence α), GoodShape s →
      GoodShape (List.foldl applyOp s ops)
  | [], _, h => h
  | op :: ops, s, h => goodShape_foldl ops (applyOp s op) (goodShape_applyOp h op)

theorem goodShape_build (v : α) (ops : List (BuildOp α)) :
    GoodShape (build v ops) :=
  goodShape_foldl ops (Sequence.ofValue v) (goodShape_ofValue v)

/-! ### End-time bookkeeping along `then` chains -/

theorem foldl_applyThen_endTime :
    ∀ (cs : List (ThenCall α)) (s : Sequence α),
      (List.foldl applyThen s cs).endTime =
        s.endTime + (cs.map ThenCall.duration).sum
  | [], s => by simp
  | c :: cs, s => by
    rw [List.foldl_cons, foldl_applyThen_endTime cs]
    show s.endTime + c.duration + (cs.map ThenCall.duration).sum = _
    rw [List.map_cons, List.sum_cons, add_assoc]

theorem foldl_applyThen_startTime :
    ∀ (cs : List (ThenCall α)) (s : Sequence α),
      (List.foldl applyThen s cs).startTime = s.startTime
  | [], s => rfl
  | c :: cs, s => by
    rw [List.foldl_cons, foldl_applyThen_startTime cs]
    rfl

/-! ### A store of sequence objects, for copy independence -/

/-- Replace the element at one index of a list by its image under `f`,
leaving every other element alone. -/
def listUpdate (f : Sequence α → Sequence α) :
    Nat → List (Sequence α) → List (Sequence α)
  | _, [] => []
  | 0, s :: rest => f s :: rest
  | Nat.succ n, s :: rest => s :: listUpdate f n rest

/-- A heap of independently owned `Sequence` objects, addressed by index;
`copy()` allocates a fresh object (`std::make_shared`). -/
structure Store (α : Type) where
  seqs : List (Sequence α)

/-- Model of `s2 = s1.copy()`: allocate a value copy of the object at index
`i` as a fresh object, returning the updated store and the fresh index. -/
def Store.copyAt (st : Store α) (i : Nat) : Store α × Nat :=
  (⟨st.seqs ++ ((st.seqs[i]?).map Sequence.copy).toList⟩, st.seqs.length)

/-- Application of a chain of `then`/`set` calls to the object at index `i`,
in place. -/
def Store.opsAt (st : Store α) (i : Nat) (ops : List (BuildOp α)) : Store α :=
  ⟨listUpdate (fun s => List.foldl applyOp s ops) i st.seqs⟩

theorem listUpdate_getElem?_ne (f : Sequence α → Sequence α) :
    ∀ (i k : Nat) (l : List (Sequence α)), k ≠ i →
      (listUpdate f i l)[k]? = l[k]?
  | _, _, [], _ => by simp [listUpdate]
  | 0, k, s :: rest, hk => by
    cases k with
    | zero => exact absurd rfl hk
    | succ k' => simp [listUpdate]
  | Nat.succ n, k, s :: rest, hk => by
    cases k with
    | zero => simp [listUpdate]
    | succ k' =>
      simp only [listUpdate, List.getElem?_cons_succ]
      exact listUpdate_getElem?_ne f n k' rest (fun h => hk (by rw [h]))

/-! ### Guard-clause unfoldings of `getValue` -/

theorem getValue_of_lt_start {s : Sequence α} {t : ℚ} (h : t < s.startTime) :
    s.getValue t = s.initial_value := by
  unfold Sequence.getValue Sequence.getStartTime
  rw [if_pos h]

theorem getValue_of_end_le {s : Sequence α} {t : ℚ} (h0 : ¬ t < s.startTime)
    (h : s.endTime ≤ t) : s.getValue t = s.getEndValue := by
  unfold Sequence.getValue Sequence.getStartTime Sequence.getEndTime
  rw [if_neg h0, if_pos h]

/-! ### Concrete sequences used as witnesses -/

/-- A concrete two-phrase sequence satisfying all structural invariants:
a ramp on `[0, 2)` followed by a hold on `[2, 5)`. -/
def twoPhraseSeq : Sequence ℚ :=
  { startTime := 0, endTime := 5, initial_value := 0,
    phrases := [{ startTime := 0, endTime := 2, startValue := 0, endValue := 4,
                  valueAt := fun t => 2 * t },
                { startTime := 2, endTime := 5, startValue := 4, endValue := 4,
                  valueAt := fun _ => 4 }] }

/-! ### The claims -/

/-- C1: for every Sequence satisfying the structural invariants (phrases
chronologically contiguous — adjacent phrase boundaries meet and no phrase
runs backwards in time — with `startTime` equal to the first phrase's start
time and `endTime` equal to the last phrase's end time) and every
`startTime ≤ t < endTime`, `getValue t` returns the value computed by the
first phrase of the scan whose `endTime > t`; that phrase's half-open interval
`[startTime, endTime)` contains `t`, it is the unique phrase in the list doing
so, and the result equals that phrase's own evaluation at `t`. -/
theorem c1_getValue_unique_phrase (s : Sequence α) (t : ℚ)
    (hchain : List.Chain' PhraseLink s.phrases)
    (hdur : ∀ p ∈ s.phrases, PhraseForward p)
    (hne : s.phrases ≠ [])
    (hstart : s.startTime = (s.phrases.head hne).startTime)
    (hend : s.endTime = (s.phrases.getLast hne).endTime)
    (h1 : s.startTime ≤ t) (h2 : t < s.endTime) :
    ∃ p, findDelegate t s.phrases = some p ∧ p ∈ s.phrases ∧
      p.startTime ≤ t ∧ t < p.endTime ∧ s.getValue t = p.valueAt t ∧
      ∀ q ∈ s.phrases, q.startTime ≤ t → t < q.endTime → q = p := by
  obtain ⟨p, hfind, hmem, hp1, hp2, huniq⟩ :=
    findDelegate_spec t s.phrases hchain hdur hne
      (by rw [← hstart]; exact h1) (by rw [← hend]; exact h2)
  refine ⟨p, hfind, hmem, hp1, hp2, ?_, huniq⟩
  rw [getValue_of_between h1 h2, hfind]

/-- Witness for C1: the concrete two-phrase sequence, queried at `t = 3`. -/
theorem c1_witness :
    ∃ p, findDelegate 3 twoPhraseSeq.phrases = some p ∧
      p ∈ twoPhraseSeq.phrases ∧
      p.startTime ≤ 3 ∧ (3:ℚ) < p.endTime ∧
      twoPhraseSeq.getValue 3 = p.valueAt 3 ∧
      ∀ q ∈ twoPhraseSeq.phrases, q.startTime ≤ 3 → (3:ℚ) < q.endTime →
        q = p :=
  c1_getValue_unique_phrase twoPhraseSeq 3
    (by simp [twoPhraseSeq, List.chain'_cons, List.chain'_singleton, PhraseLink])
    (by simp [twoPhraseSeq, PhraseForward]; decide)
    (by simp [twoPhraseSeq])
    (by decide)
    (by decide)
    (by decide)
    (by decide)

/-- C2 counterexample: the claim quantifies over *every* Sequence, but the
initial-clamp branch of `getValue` is checked first, so for a sequence whose
end time precedes its start time (reachable via `then` with a negative
duration) a query time with `endTime ≤ t < startTime` returns `initialValue`,
not `getEndValue()`. -/
theorem c2_counterexample :
    ((Sequence.ofValue (0:ℚ)).thenPhrase holdStrategy 5 (-2)).getEndTime
        ≤ -1 ∧
    ((Sequence.ofValue (0:ℚ)).thenPhrase holdStrategy 5 (-2)).getValue (-1) ≠
      ((Sequence.ofValue (0:ℚ)).thenPhrase holdStrategy 5 (-2)).getEndValue := by
  constructor
  · show (0:ℚ) + (-2) ≤ -1
    norm_num
  · rw [getValue_of_lt_start (by norm_num [Sequence.thenPhrase, Sequence.ofValue]),
      thenPhrase_getEndValue]
    show (0:ℚ) ≠ 5
    norm_num

/-- C2 (amended): for every Sequence whose start time does not exceed its end
time — as holds for every sequence built with non-negative durations —
`getValue` clamps: below `getStartTime()` it returns `initialValue`, and at or
after `getEndTime()` it returns `getEndValue()`; the sequence never
extrapolates or loops. -/
theorem c2_amended_clamps (s : Sequence α) (t : ℚ)
    (hse : s.startTime ≤ s.endTime) :
    (t < s.getStartTime → s.getValue t = s.initial_value) ∧
    (s.getEndTime ≤ t → s.getValue t = s.getEndValue) := by
  constructor
  · intro h
    exact getValue_of_lt_start h
  · intro h
    exact getValue_of_end_le (not_lt.mpr (le_trans hse h)) h

/-- Witness for the amended C2: a freshly constructed sequence, queried at
`t = 3` (and the initial clamp vacuously below `0`). -/
theorem c2_amended_witness :
    ((3:ℚ) < (Sequence.ofValue (7:ℚ)).getStartTime →
      (Sequence.ofValue (7:ℚ)).getValue 3 =
        (Sequence.ofValue (7:ℚ)).initial_value) ∧
    ((Sequence.ofValue (7:ℚ)).getEndTime ≤ 3 →
      (Sequence.ofValue (7:ℚ)).getValue 3 =
        (Sequence.ofValue (7:ℚ)).getEndValue) :=
  c2_amended_clamps (Sequence.ofValue (7:ℚ)) 3 (by decide)

/-- C8: for every Sequence satisfying the structural invariants (here: a
non-empty phrase list whose last phrase's end time is the cached `endTime`),
whenever the two guard clauses are passed (`startTime ≤ atTime < endTime`) the
linear scan finds a phrase with `endTime > atTime` and `getValue` returns from
inside the loop, so the final fallback returning `getEndValue()` is
unreachable. -/
theorem c8_fallback_unreachable (s : Sequence α) (t : ℚ)
    (hne : s.phrases ≠ [])
    (hend : s.endTime = (s.phrases.getLast hne).endTime)
    (h1 : s.startTime ≤ t) (h2 : t < s.endTime) :
    ∃ p, findDelegate t s.phrases = some p ∧ s.getValue t = p.valueAt t := by
  obtain ⟨p, hp⟩ := findDelegate_isSome_of_lt_getLast t s.phrases hne
    (by rw [← hend]; exact h2)
  exact ⟨p, hp, by rw [getValue_of_between h1 h2, hp]⟩

/-- Witness for C8: the concrete two-phrase sequence, queried at `t = 4`. -/
theorem c8_witness :
    ∃ p, findDelegate 4 twoPhraseSeq.phrases = some p ∧
      twoPhraseSeq.getValue 4 = p.valueAt 4 :=
  c8_fallback_unreachable twoPhraseSeq 4
    (by simp [twoPhraseSeq]) (by decide) (by decide) (by decide)

/-- C10: for every Sequence satisfying the structural invariants (contiguous
phrase boundaries, `startTime` the first phrase's start time), whenever
`getValue` delegates to a phrase `p` inside the guarded region, the argument
satisfies `p.startTime ≤ atTime < p.endTime` — the phrase is never invoked
outside its defined domain — and in particular the delegate has strictly
positive extent, so a zero-duration phrase (such as the `Hold` appended by
`set` on a non-empty sequence) is never the delegate. -/
theorem c10_delegate_within_domain (s : Sequence α) (t : ℚ)
    (hchain : List.Chain' PhraseLink s.phrases)
    (hne : s.phrases ≠ [])
    (hstart : s.startTime = (s.phrases.head hne).startTime)
    (h1 : s.startTime ≤ t) (h2 : t < s.endTime) :
    ∀ p, findDelegate t s.phrases = some p →
      p.startTime ≤ t ∧ t < p.endTime ∧ p.startTime < p.endTime ∧
      s.getValue t = p.valueAt t := by
  intro p hp
  obtain ⟨ha, hb⟩ := findDelegate_domain t s.phrases hchain hne
    (by rw [← hstart]; exact h1) p hp
  exact ⟨ha, hb, lt_of_le_of_lt ha hb, by rw [getValue_of_between h1 h2, hp]⟩

/-- Witness for C10: the concrete two-phrase sequence, queried at `t = 1`;
the delegate is the first phrase and `1` lies strictly inside its domain. -/
theorem c10_witness :
    ∃ p, findDelegate 1 twoPhraseSeq.phrases = some p ∧
      p.startTime ≤ 1 ∧ (1:ℚ) < p.endTime ∧ p.startTime < p.endTime ∧
      twoPhraseSeq.getValue 1 = p.valueAt 1 := by
  obtain ⟨h1, h2, h3, h4⟩ :=
    c10_delegate_within_domain twoPhraseSeq 1
      (by simp [twoPhraseSeq, List.chain'_cons, List.chain'_singleton,
        PhraseLink])
      (by simp [twoPhraseSeq])
      (by decide)
      (by decide)
      (by decide)
      { startTime := 0, endTime := 2, startValue := 0, endValue := 4,
        valueAt := fun t => 2 * t }
      (by rfl)
  exact ⟨_, rfl, h1, h2, h3, h4⟩

theorem getEndTime_eq (s : Sequence α) : s.getEndTime = s.endTime := rfl

theorem getStartTime_eq (s : Sequence α) : s.getStartTime = s.startTime := rfl

/-- C3: for every Sequence built by any chain of `then`/`set` calls, every
appended phrase starts exactly at the sequence's end time and end value
current at append time (no caller-supplied start boundary), and consequently
every adjacent phrase pair of the built sequence satisfies
`p_i.endTime = p_{i+1}.startTime` and `p_i.endValue = p_{i+1}.startValue`
(no gaps, no overlaps). -/
theorem c3_continuity (v : α) (ops : List (BuildOp α)) :
    List.Chain' PhraseContinuous (build v ops).phrases ∧
    ∀ (s : Sequence α) (strat : PhraseStrategy α) (val : α) (d : ℚ),
      ((s.thenPhrase strat val d).phrases.getLast?).map Phrase.startTime =
        some s.getEndTime ∧
      ((s.thenPhrase strat val d).phrases.getLast?).map Phrase.startValue =
        some s.getEndValue := by
  refine ⟨(goodShape_build v ops).1, ?_⟩
  intro s strat val d
  rw [thenPhrase_getLast?]
  exact ⟨rfl, rfl⟩

/-- C4: for every Sequence constructed from a single initial value and mutated
by a finite chain of `then` calls with non-negative durations, the end time
after the chain equals 0 plus the sum of all appended durations, the start
time is unaffected by the chain, and the end time is non-decreasing across the
chain (every earlier stage has an end time no larger than the final one). -/
theorem c4_monotonic_growth (v : α) (cs : List (ThenCall α))
    (hd : ∀ c ∈ cs, 0 ≤ c.duration) :
    (buildThens v cs).getEndTime = 0 + (cs.map ThenCall.duration).sum ∧
    (buildThens v cs).getStartTime = (Sequence.ofValue v).getStartTime ∧
    ∀ l1 l2, cs = l1 ++ l2 →
      (buildThens v l1).getEndTime ≤ (buildThens v cs).getEndTime := by
  refine ⟨foldl_applyThen_endTime cs _, foldl_applyThen_startTime cs _, ?_⟩
  intro l1 l2 hcs
  subst hcs
  rw [getEndTime_eq, getEndTime_eq]
  show (List.foldl applyThen (Sequence.ofValue v) l1).endTime ≤
    (List.foldl applyThen (Sequence.ofValue v) (l1 ++ l2)).endTime
  rw [List.foldl_append, foldl_applyThen_endTime l2]
  have hsum : 0 ≤ (l2.map ThenCall.duration).sum := by
    apply List.sum_nonneg
    intro x hx
    obtain ⟨c, hc, rfl⟩ := List.mem_map.mp hx
    exact hd c (List.mem_append_right _ hc)
  linarith

/-- Chain of two `then` calls with durations 1 and 2, used as the C4
witness. -/
def c4Calls : List (ThenCall ℚ) :=
  [{ strat := holdStrategy, value := 1, duration := 1 },
   { strat := holdStrategy, value := 2, duration := 2 }]

/-- Witness for C4: the two-call chain of durations 1 and 2 on
`Sequence(0)`. -/
theorem c4_witness :
    (buildThens (0:ℚ) c4Calls).getEndTime =
      0 + (c4Calls.map ThenCall.duration).sum ∧
    (buildThens (0:ℚ) c4Calls).getStartTime =
      (Sequence.ofValue (0:ℚ)).getStartTime ∧
    ∀ l1 l2, c4Calls = l1 ++ l2 →
      (buildThens (0:ℚ) l1).getEndTime ≤
        (buildThens (0:ℚ) c4Calls).getEndTime :=
  c4_monotonic_growth 0 c4Calls (by decide)

/-- C5: `set(value)` splits on the phrase list and is fluent: on a sequence
with no phrases it overwrites `initialValue` in place — no phrase created,
`getEndTime()` and phrase count unchanged (still 0), and afterwards
`getStartValue() = getEndValue() = value`; on a sequence with at least one
phrase it appends a zero-duration `Hold` phrase at the current end time and
end value transitioning to `value` — phrase count up by one,
`getEndValue() = value`, `getEndTime()` unchanged. -/
theorem c5_set_spec (s : Sequence α) (v : α) :
    (s.phrases = [] →
      (s.set v).phrases = [] ∧
      (s.set v).getStartValue = v ∧
      (s.set v).getEndValue = v ∧
      (s.set v).getPhraseCount = 0 ∧
      (s.set v).getEndTime = s.getEndTime) ∧
    (s.phrases ≠ [] →
      (s.set v).getPhraseCount = s.getPhraseCount + 1 ∧
      (s.set v).getEndValue = v ∧
      (s.set v).getEndTime = s.getEndTime ∧
      ((s.set v).phrases.getLast?).map Phrase.startTime = some s.getEndTime ∧
      ((s.set v).phrases.getLast?).map Phrase.endTime = some s.getEndTime ∧
      ((s.set v).phrases.getLast?).map Phrase.startValue =
        some s.getEndValue ∧
      ((s.set v).phrases.getLast?).map Phrase.endValue = some v) := by
  constructor
  · intro he
    have hemp : s.phrases.isEmpty := by simp [he]
    unfold Sequence.set
    rw [if_pos hemp]
    refine ⟨he, rfl, ?_, ?_, rfl⟩
    · unfold Sequence.getEndValue
      simp [he]
    · simp [Sequence.getPhraseCount, he]
  · intro hne
    have hemp : ¬ s.phrases.isEmpty := by simp [hne]
    unfold Sequence.set
    rw [if_neg hemp]
    refine ⟨?_, thenPhrase_getEndValue s holdStrategy v 0, ?_, ?_, ?_, ?_, ?_⟩
    · simp [Sequence.getPhraseCount, thenPhrase_phrases]
    · rw [getEndTime_eq, getEndTime_eq, thenPhrase_endTime, add_zero]
    · rw [thenPhrase_getLast?]
      rfl
    · rw [thenPhrase_getLast?]
      simp [add_zero]
    · rw [thenPhrase_getLast?]
      rfl
    · rw [thenPhrase_getLast?]
      rfl

/-- Witness for C5: the empty case on `Sequence(5)` with `set(7)`, and the
non-empty case on the concrete two-phrase sequence with `set(9)`. -/
theorem c5_witness :
    ((Sequence.ofValue (5:ℚ)).set 7).getStartValue = 7 ∧
    ((Sequence.ofValue (5:ℚ)).set 7).getEndValue = 7 ∧
    ((Sequence.ofValue (5:ℚ)).set 7).getPhraseCount = 0 ∧
    ((Sequence.ofValue (5:ℚ)).set 7).getEndTime =
      (Sequence.ofValue (5:ℚ)).getEndTime ∧
    (twoPhraseSeq.set 9).getPhraseCount = twoPhraseSeq.getPhraseCount + 1 ∧
    (twoPhraseSeq.set 9).getEndValue = 9 ∧
    (twoPhraseSeq.set 9).getEndTime = twoPhraseSeq.getEndTime := by
  obtain ⟨hempty, -⟩ := c5_set_spec (Sequence.ofValue (5:ℚ)) 7
  obtain ⟨-, hfull⟩ := c5_set_spec twoPhraseSeq 9
  obtain ⟨-, ha, hb, hc, hd⟩ := hempty rfl
  obtain ⟨he, hf, hg, -⟩ := hfull (by simp [twoPhraseSeq])
  exact ⟨ha, hb, hc, hd, he, hf, hg⟩

/-- C6 counterexample: `then` performs no duration validation. Appending with
`duration = -1` to a sequence ending at time 1 is not rejected: it appends a
phrase (phrase count 2) whose end time 0 precedes its start time 1. -/
theorem c6_counterexample :
    ∃ p, (((Sequence.ofValue (0:ℚ)).thenPhrase holdStrategy 1 1).thenPhrase
        holdStrategy 2 (-1)).phrases.getLast? = some p ∧
      p.endTime < p.startTime ∧
      (((Sequence.ofValue (0:ℚ)).thenPhrase holdStrategy 1 1).thenPhrase
          holdStrategy 2 (-1)).getPhraseCount = 2 := by
  refine ⟨_, thenPhrase_getLast? _ _ _ _, ?_, rfl⟩
  show (0:ℚ) + 1 + (-1) < 0 + 1
  norm_num

/-- C6 (amended): `then` does not reject negative durations — for every
`duration < 0` it silently appends a phrase whose end time
(`endTime + duration`) precedes its start time (`endTime`), and the sequence's
cached end time decreases. -/
theorem c6_amended_negative_duration (s : Sequence α)
    (strat : PhraseStrategy α) (v : α) (d : ℚ) (hd : d < 0) :
    (s.thenPhrase strat v d).getPhraseCount = s.getPhraseCount + 1 ∧
    (∀ p, (s.thenPhrase strat v d).phrases.getLast? = some p →
      p.endTime < p.startTime) ∧
    (s.thenPhrase strat v d).getEndTime < s.getEndTime := by
  refine ⟨by simp [Sequence.getPhraseCount, thenPhrase_phrases], ?_, ?_⟩
  · intro p hp
    rw [thenPhrase_getLast?] at hp
    cases hp
    show s.getEndTime + d < s.getEndTime
    linarith
  · show s.endTime + d < s.endTime
    linarith

/-- Witness for the amended C6: `then(5, -1)` on a fresh `Sequence(0)`. -/
theorem c6_amended_witness :
    ((Sequence.ofValue (0:ℚ)).thenPhrase holdStrategy 5 (-1)).getPhraseCount =
      (Sequence.ofValue (0:ℚ)).getPhraseCount + 1 ∧
    (∀ p, ((Sequence.ofValue (0:ℚ)).thenPhrase holdStrategy 5
        (-1)).phrases.getLast? = some p → p.endTime < p.startTime) ∧
    ((Sequence.ofValue (0:ℚ)).thenPhrase holdStrategy 5 (-1)).getEndTime <
      (Sequence.ofValue (0:ℚ)).getEndTime :=
  c6_amended_negative_duration (Sequence.ofValue (0:ℚ)) holdStrategy 5 (-1)
    (by decide)

/-- C7 (code bug): the claim demands that construction from the empty phrase
list fail loudly with a reported error rather than read past the end of the
empty list, but the C++ constructor has no emptiness check — it
unconditionally reads `phrases.front()` and `phrases.back()`, an out-of-bounds
read on the empty vector (undefined behavior, nothing reported). Evaluated at
the failing input: both unchecked element accesses are out of bounds
(`head? = getLast? = none`), so the construction has no defined result. -/
theorem c7_empty_list_out_of_bounds :
    ([] : List (Phrase ℚ)).head? = none ∧
    ([] : List (Phrase ℚ)).getLast? = none ∧
    Sequence.ofPhrases ([] : List (Phrase ℚ)) = none :=
  ⟨rfl, rfl, rfl⟩

/-- C9 (copy independence): in a store of sequence objects, `copy()` of the
object at a valid index `i` allocates a fresh object at a fresh index;
applying any chain of `then`/`set` calls to that fresh copy leaves the
original object at `i` — and hence its `getPhraseCount()`, `getEndValue()` and
`getEndTime()` — exactly as before the mutation. -/
theorem c9_copy_independence (st : Store α) (i : Nat)
    (ops : List (BuildOp α)) (h : i < st.seqs.length) :
    (((st.copyAt i).1.opsAt (st.copyAt i).2 ops).seqs[i]?) = st.seqs[i]? ∧
    ((((st.copyAt i).1.opsAt (st.copyAt i).2 ops).seqs[i]?).map
      Sequence.getPhraseCount) = (st.seqs[i]?).map Sequence.getPhraseCount ∧
    ((((st.copyAt i).1.opsAt (st.copyAt i).2 ops).seqs[i]?).map
      Sequence.getEndValue) = (st.seqs[i]?).map Sequence.getEndValue ∧
    ((((st.copyAt i).1.opsAt (st.copyAt i).2 ops).seqs[i]?).map
      Sequence.getEndTime) = (st.seqs[i]?).map Sequence.getEndTime := by
  have hmain :
      (((st.copyAt i).1.opsAt (st.copyAt i).2 ops).seqs[i]?) = st.seqs[i]? := by
    show (listUpdate _ st.seqs.length
      (st.seqs ++ ((st.seqs[i]?).map Sequence.copy).toList))[i]? = _
    rw [listUpdate_getElem?_ne _ st.seqs.length i _ (Nat.ne_of_lt h)]
    exact List.getElem?_append_left h
  exact ⟨hmain, by rw [hmain], by rw [hmain], by rw [hmain]⟩

/-- Witness for C9: a one-object store, copying index 0 and appending a phrase
to the copy. -/
theorem c9_witness :
    ((((Store.mk [Sequence.ofValue (1:ℚ)]).copyAt 0).1.opsAt
        ((Store.mk [Sequence.ofValue (1:ℚ)]).copyAt 0).2
        [BuildOp.thenOp holdStrategy 5 1]).seqs[0]?) =
      (Store.mk [Sequence.ofValue (1:ℚ)]).seqs[0]? ∧
    (((((Store.mk [Sequence.ofValue (1:ℚ)]).copyAt 0).1.opsAt
        ((Store.mk [Sequence.ofValue (1:ℚ)]).copyAt 0).2
        [BuildOp.thenOp holdStrategy 5 1]).seqs[0]?).map
      Sequence.getPhraseCount) =
      ((Store.mk [Sequence.ofValue (1:ℚ)]).seqs[0]?).map
        Sequence.getPhraseCount ∧
    (((((Store.mk [Sequence.ofValue (1:ℚ)]).copyAt 0).1.opsAt
        ((Store.mk [Sequence.ofValue (1:ℚ)]).copyAt 0).2
        [BuildOp.thenOp holdStrategy 5 1]).seqs[0]?).map
      Sequence.getEndValue) =
      ((Store.mk [Sequence.ofValue (1:ℚ)]).seqs[0]?).map
        Sequence.getEndValue ∧
    (((((Store.mk [Sequence.ofValue (1:ℚ)]).copyAt 0).1.opsAt
        ((Store.mk [Sequence.ofValue (1:ℚ)]).copyAt 0).2
        [BuildOp.thenOp holdStrategy 5 1]).seqs[0]?).map
      Sequence.getEndTime) =
      ((Store.mk [Sequence.ofValue (1:ℚ)]).seqs[0]?).map
        Sequence.getEndTime :=
  c9_copy_independence (Store.mk [Sequence.ofValue (1:ℚ)]) 0
    [BuildOp.thenOp holdStrategy 5 1] (by decide)

end Choreograph
